import Mathlib

/-!
Verification development for the `pyhelper` conflict-detection tool
(`src/main.rs`).  The program parses two Python-style package specifiers
into `(name, version requirement)` records and then decides whether the
two requirements can be satisfied simultaneously by probing a fixed list
of candidate versions.

The requirement grammar and the matching semantics are those of the Rust
`semver` crate (version 1.x), which the program uses for
`VersionReq::from_str`, `Version::parse` and `VersionReq::matches`.
The relevant parts of that crate are embedded here as well
(`parse.rs`, `eval.rs` and `display.rs`): numeric components carry the
crate's checked-u64 overflow bound, wildcard components (`1.*`, `1.x`,
`1.X` as minor or patch, and the lone `*` requirement) are parsed to
`Op::Wildcard`, and build metadata (`+...`) is accepted — stored on a
`Version`, validated and discarded on a `Comparator` — exactly as the
crate does.
-/

namespace PyHelper

/-- Pre-release identifier of a semantic version.  Numeric identifiers
compare numerically and are lower than alphanumeric identifiers
(`semver::Prerelease`). -/
inductive PreId where
  | num (n : Nat)
  | str (s : String)
deriving DecidableEq

/-- A semantic version `major.minor.patch[-pre][+build]` as in
`semver::Version`.  Build metadata is stored but ignored by ordering and
matching. -/
structure Version where
  major : Nat
  minor : Nat
  patch : Nat
  pre : List PreId
  build : List String
deriving DecidableEq

/-- Comparator operator (`semver::Op`).  The default operator, written as a
bare version, is caret; `wildcard` arises from `1.*`-style components. -/
inductive Op where
  | exact
  | greater
  | greaterEq
  | less
  | lessEq
  | tilde
  | caret
  | wildcard
deriving DecidableEq

/-- One comparator clause of a requirement (`semver::Comparator`). -/
structure Comparator where
  op : Op
  major : Nat
  minor : Option Nat
  patch : Option Nat
  pre : List PreId
deriving DecidableEq

/-- A version requirement: comparator clauses combined with AND semantics
(`semver::VersionReq`). -/
structure VersionReq where
  comparators : List Comparator
deriving DecidableEq

/-- `VersionReq::STAR`: the requirement with no comparators, displayed `*`. -/
def VersionReq.star : VersionReq := ⟨[]⟩

/- ### Character-level parsing helpers (semver `parse.rs`) -/

/-- Value of a digit run. -/
def digitsToNat (ds : List Char) : Nat :=
  ds.foldl (fun a c => 10 * a + (c.toNat - 48)) 0

/-- `numeric_identifier`: a non-empty digit run without leading zeros whose
value fits in a `u64` (the crate accumulates with checked arithmetic and
fails with `ErrorKind::Overflow` past `u64::MAX`). -/
def parseNum (cs : List Char) : Option (Nat × List Char) :=
  let ds := cs.takeWhile Char.isDigit
  let rest := cs.dropWhile Char.isDigit
  if ds.isEmpty then none
  else if 1 < ds.length ∧ ds.head? = some '0' then none
  else if 18446744073709551615 < digitsToNat ds then none
  else some (digitsToNat ds, rest)

/-- Characters allowed inside a pre-release identifier. -/
def isPreChar (c : Char) : Bool := c.isAlphanum || c == '-'

/-- A pre-release segment is rejected when it is empty or is an all-digit
segment with a leading zero. -/
def badPreSeg (seg : List Char) : Bool :=
  seg.isEmpty || (seg.all Char.isDigit && decide (1 < seg.length) && seg.head? == some '0')

/-- Classification of a (valid) pre-release segment. -/
def mkPreId (seg : List Char) : PreId :=
  if seg.all Char.isDigit then .num (digitsToNat seg) else .str seg.asString

/-- Parse the pre-release part after the `-`: dot-separated identifiers over
`[0-9A-Za-z-]`, each non-empty, numeric ones without leading zeros. -/
def parsePre (cs : List Char) : Option (List PreId × List Char) :=
  let region := cs.takeWhile (fun c => isPreChar c || c == '.')
  let rest := cs.dropWhile (fun c => isPreChar c || c == '.')
  let segs := region.splitOn '.'
  if segs.any badPreSeg then none
  else some (segs.map mkPreId, rest)

/-- Parse build metadata after the `+`: dot-separated non-empty identifiers
over `[0-9A-Za-z-]`; unlike pre-release identifiers, leading zeros are
allowed. -/
def parseBuild (cs : List Char) : Option (List String × List Char) :=
  let region := cs.takeWhile (fun c => isPreChar c || c == '.')
  let rest := cs.dropWhile (fun c => isPreChar c || c == '.')
  let segs := region.splitOn '.'
  if segs.any List.isEmpty then none
  else some (segs.map List.asString, rest)

/-- `Version::parse`: requires the full `major.minor.patch` triple, then an
optional `-pre`, an optional `+build`, and then the end of input. -/
def versionParseL (cs : List Char) : Option Version :=
  match parseNum cs with
  | none => none
  | some (maj, r1) =>
    match r1 with
    | '.' :: r2 =>
      match parseNum r2 with
      | none => none
      | some (mi, r3) =>
        match r3 with
        | '.' :: r4 =>
          match parseNum r4 with
          | none => none
          | some (pa, r5) =>
            match r5 with
            | [] => some ⟨maj, mi, pa, [], []⟩
            | '-' :: r6 =>
              match parsePre r6 with
              | none => none
              | some (pre, r7) =>
                match r7 with
                | [] => some ⟨maj, mi, pa, pre, []⟩
                | '+' :: r8 =>
                  match parseBuild r8 with
                  | some (build, []) => some ⟨maj, mi, pa, pre, build⟩
                  | _ => none
                | _ => none
            | '+' :: r6 =>
              match parseBuild r6 with
              | some (build, []) => some ⟨maj, mi, pa, [], build⟩
              | _ => none
            | _ => none
        | _ => none
    | _ => none

/-- `Version::parse` on a string. -/
def versionParse (s : String) : Option Version := versionParseL s.toList

/-- Leading comparator operator; `none` when the comparator is written as a
bare version (the crate detects this by comparing input lengths and then
uses `Op::DEFAULT`, which is caret). -/
def parseOp : List Char → Option Op × List Char
  | '>' :: '=' :: rest => (some .greaterEq, rest)
  | '>' :: rest => (some .greater, rest)
  | '<' :: '=' :: rest => (some .lessEq, rest)
  | '<' :: rest => (some .less, rest)
  | '=' :: rest => (some .exact, rest)
  | '~' :: rest => (some .tilde, rest)
  | '^' :: rest => (some .caret, rest)
  | cs => (none, cs)

/-- The requirement grammar skips ASCII spaces between tokens. -/
def trimSpaces (cs : List Char) : List Char := cs.dropWhile (fun c => c == ' ')

/-- A wildcard component: one of `*`, `x`, `X`. -/
def wildcard : List Char → Option (List Char)
  | c :: rest => if c == '*' || c == 'x' || c == 'X' then some rest else none
  | [] => none

/-- One comparator: operator, spaces, major, then optional `.minor` and
`.patch` parts (each either numeric or a wildcard; a numeric component
after a wildcard is rejected), then — only when a numeric patch is
present — optional `-pre` and `+build` parts (build metadata is validated
and discarded, the `Comparator` having no build field).  A wildcard
component turns the operator into `Op::Wildcard` only when no explicit
operator was written.  Returns the unconsumed remainder. -/
def comparatorParseL (cs : List Char) : Option (Comparator × List Char) :=
  let opt := (parseOp cs).1
  let op := opt.getD Op.caret
  let cs2 := trimSpaces (parseOp cs).2
  match parseNum cs2 with
  | none => none
  | some (maj, r1) =>
    match r1 with
    | '.' :: r2 =>
      match wildcard r2 with
      | some r2w =>
        -- wildcard minor
        let op1 := if opt.isNone then Op.wildcard else op
        match r2w with
        | '.' :: r3 =>
          match wildcard r3 with
          | some r3w => some (⟨op1, maj, none, none, []⟩, r3w)
          | none => none
        | _ => some (⟨op1, maj, none, none, []⟩, r2w)
      | none =>
        match parseNum r2 with
        | none => none
        | some (mi, r3) =>
          match r3 with
          | '.' :: r4 =>
            match wildcard r4 with
            | some r4w =>
              -- wildcard patch
              some (⟨if opt.isNone then Op.wildcard else op,
                maj, some mi, none, []⟩, r4w)
            | none =>
              match parseNum r4 with
              | none => none
              | some (pa, r5) =>
                match r5 with
                | '-' :: r6 =>
                  match parsePre r6 with
                  | none => none
                  | some (pre, r7) =>
                    match r7 with
                    | '+' :: r8 =>
                      match parseBuild r8 with
                      | none => none
                      | some (_, r9) => some (⟨op, maj, some mi, some pa, pre⟩, r9)
                    | _ => some (⟨op, maj, some mi, some pa, pre⟩, r7)
                | '+' :: r6 =>
                  match parseBuild r6 with
                  | none => none
                  | some (_, r7) => some (⟨op, maj, some mi, some pa, []⟩, r7)
                | _ => some (⟨op, maj, some mi, some pa, []⟩, r5)
          | _ => some (⟨op, maj, some mi, none, []⟩, r3)
    | _ => some (⟨op, maj, none, none, []⟩, r1)

/-- Comma-separated list of comparators.  The fuel argument bounds the
number of comparators; each comparator consumes at least one character,
so `length + 1` fuel is always enough. -/
def parseComparators : Nat → List Char → Option (List Comparator)
  | 0, _ => none
  | fuel + 1, cs =>
    match comparatorParseL cs with
    | none => none
    | some (c, rest) =>
      match trimSpaces rest with
      | [] => some [c]
      | ',' :: rest2 =>
        if (trimSpaces rest2).isEmpty then none
        else
          match parseComparators fuel (trimSpaces rest2) with
          | none => none
          | some l => some (c :: l)
      | _ => none

/-- `VersionReq::from_str`: a lone wildcard yields the empty comparator
list, otherwise a comma-separated comparator list; the empty string is
rejected. -/
def reqFromStrL (cs : List Char) : Option VersionReq :=
  match trimSpaces cs with
  | [] => none
  | c :: rest =>
    if c == '*' || c == 'x' || c == 'X' then
      if (trimSpaces rest).isEmpty then some VersionReq.star else none
    else
      match parseComparators ((c :: rest).length + 1) (c :: rest) with
      | none => none
      | some l => some ⟨l⟩

/-- `VersionReq::from_str` on a string. -/
def reqFromStr (s : String) : Option VersionReq := reqFromStrL s.toList

/- ### Matching semantics (semver `eval.rs`) -/

/-- Ordering of two pre-release identifiers: numeric before alphanumeric,
numeric by value, alphanumeric by ASCII. -/
def PreId.cmp : PreId → PreId → Ordering
  | .num a, .num b => compare a b
  | .num _, .str _ => .lt
  | .str _, .num _ => .gt
  | .str a, .str b => compare a b

/-- Lexicographic ordering of identifier lists; a strict prefix is lower. -/
def preListCmp : List PreId → List PreId → Ordering
  | [], [] => .eq
  | [], _ :: _ => .lt
  | _ :: _, [] => .gt
  | a :: as, b :: bs =>
    match PreId.cmp a b with
    | .eq => preListCmp as bs
    | o => o

/-- Ordering of pre-release parts: the empty pre-release (a release) is
greater than any non-empty one. -/
def preCmp (a b : List PreId) : Ordering :=
  match a.isEmpty, b.isEmpty with
  | true, true => .eq
  | true, false => .gt
  | false, true => .lt
  | false, false => preListCmp a b

/-- `a >= b` on pre-release parts. -/
def preGe (a b : List PreId) : Bool := preCmp a b ≠ Ordering.lt

/-- `matches_exact`. -/
def matchesExact (cmp : Comparator) (v : Version) : Bool :=
  v.major == cmp.major &&
  (match cmp.minor with
   | none => true
   | some mi => v.minor == mi) &&
  (match cmp.patch with
   | none => true
   | some pa => v.patch == pa) &&
  v.pre == cmp.pre

/-- `matches_greater`. -/
def matchesGreater (cmp : Comparator) (v : Version) : Bool :=
  if v.major ≠ cmp.major then decide (v.major > cmp.major)
  else
    match cmp.minor with
    | none => false
    | some mi =>
      if v.minor ≠ mi then decide (v.minor > mi)
      else
        match cmp.patch with
        | none => false
        | some pa =>
          if v.patch ≠ pa then decide (v.patch > pa)
          else preCmp v.pre cmp.pre == Ordering.gt

/-- `matches_less`. -/
def matchesLess (cmp : Comparator) (v : Version) : Bool :=
  if v.major ≠ cmp.major then decide (v.major < cmp.major)
  else
    match cmp.minor with
    | none => false
    | some mi =>
      if v.minor ≠ mi then decide (v.minor < mi)
      else
        match cmp.patch with
        | none => false
        | some pa =>
          if v.patch ≠ pa then decide (v.patch < pa)
          else preCmp v.pre cmp.pre == Ordering.lt

/-- `matches_tilde`: same major (and minor when given); a given patch may
grow. -/
def matchesTilde (cmp : Comparator) (v : Version) : Bool :=
  if v.major ≠ cmp.major then false
  else if (match cmp.minor with
           | none => false
           | some mi => v.minor ≠ mi) then false
  else
    match cmp.patch with
    | none => preGe v.pre cmp.pre
    | some pa =>
      if v.patch ≠ pa then decide (v.patch > pa)
      else preGe v.pre cmp.pre

/-- `matches_caret`: compatible within the leftmost non-zero component. -/
def matchesCaret (cmp : Comparator) (v : Version) : Bool :=
  if v.major ≠ cmp.major then false
  else
    match cmp.minor with
    | none => true
    | some mi =>
      match cmp.patch with
      | none =>
        if cmp.major > 0 then decide (v.minor ≥ mi) else v.minor == mi
      | some pa =>
        if cmp.major > 0 then
          if v.minor ≠ mi then decide (v.minor > mi)
          else if v.patch ≠ pa then decide (v.patch > pa)
          else preGe v.pre cmp.pre
        else if mi > 0 then
          if v.minor ≠ mi then false
          else if v.patch ≠ pa then decide (v.patch > pa)
          else preGe v.pre cmp.pre
        else if v.minor ≠ mi ∨ v.patch ≠ pa then false
        else preGe v.pre cmp.pre

/-- Dispatch on the comparator operator (`matches_impl`); wildcard
comparators evaluate like exact ones over their present components. -/
def matchesImpl (cmp : Comparator) (v : Version) : Bool :=
  match cmp.op with
  | .exact => matchesExact cmp v
  | .greater => matchesGreater cmp v
  | .greaterEq => matchesExact cmp v || matchesGreater cmp v
  | .less => matchesLess cmp v
  | .lessEq => matchesExact cmp v || matchesLess cmp v
  | .tilde => matchesTilde cmp v
  | .caret => matchesCaret cmp v
  | .wildcard => matchesExact cmp v

/-- A pre-release version is admitted only by a comparator with the same
triple and a non-empty pre-release part (`pre_is_compatible`). -/
def preCompatible (cmp : Comparator) (v : Version) : Bool :=
  cmp.major == v.major && cmp.minor == some v.minor &&
  cmp.patch == some v.patch && !cmp.pre.isEmpty

/-- `VersionReq::matches`: every comparator must match, and a pre-release
version additionally needs one pre-compatible comparator. -/
def VersionReq.matches (req : VersionReq) (v : Version) : Bool :=
  req.comparators.all (fun c => matchesImpl c v) &&
  (v.pre.isEmpty || req.comparators.any (fun c => preCompatible c v))

/- ### Display (semver `display.rs`) -/

/-- Digits of a natural number. -/
def natChars (n : Nat) : List Char := (Nat.repr n).toList

/-- Display of one pre-release identifier. -/
def preIdChars : PreId → List Char
  | .num n => natChars n
  | .str s => s.toList

/-- Display of a pre-release identifier list, dot-separated. -/
def preListChars : List PreId → List Char
  | [] => []
  | [p] => preIdChars p
  | p :: rest => preIdChars p ++ '.' :: preListChars rest

/-- Display of a build identifier list, dot-separated. -/
def buildChars : List String → List Char
  | [] => []
  | [s] => s.toList
  | s :: rest => s.toList ++ '.' :: buildChars rest

/-- Display of a version. -/
def versionChars (v : Version) : List Char :=
  natChars v.major ++ '.' :: natChars v.minor ++ '.' :: natChars v.patch ++
  (if v.pre.isEmpty then [] else '-' :: preListChars v.pre) ++
  (if v.build.isEmpty then [] else '+' :: buildChars v.build)

/-- Display of a version, as a string. -/
def versionToString (v : Version) : String := (versionChars v).asString

/-- Display of a comparator operator; `Op::Wildcard` writes no operator
symbol (the wildcard shows up in the component position instead). -/
def opChars : Op → List Char
  | .exact => ['=']
  | .greater => ['>']
  | .greaterEq => ['>', '=']
  | .less => ['<']
  | .lessEq => ['<', '=']
  | .tilde => ['~']
  | .caret => ['^']
  | .wildcard => []

/-- Display of a comparator: operator, major, then the present parts; a
wildcard comparator shows `.*` in place of its first absent component. -/
def comparatorChars (c : Comparator) : List Char :=
  opChars c.op ++ natChars c.major ++
  (match c.minor with
   | none => if c.op == Op.wildcard then ['.', '*'] else []
   | some mi =>
     '.' :: natChars mi ++
     (match c.patch with
      | none => if c.op == Op.wildcard then ['.', '*'] else []
      | some pa =>
        '.' :: natChars pa ++
        (if c.pre.isEmpty then [] else '-' :: preListChars c.pre)))

/-- Display of a non-empty comparator list, `", "`-separated. -/
def comparatorsChars : List Comparator → List Char
  | [] => []
  | [c] => comparatorChars c
  | c :: rest => comparatorChars c ++ ',' :: ' ' :: comparatorsChars rest

/-- Display of a requirement: `*` when unconstrained. -/
def reqChars (r : VersionReq) : List Char :=
  match r.comparators with
  | [] => ['*']
  | l => comparatorsChars l

/-- Display of a requirement, as a string. -/
def reqToString (r : VersionReq) : String := (reqChars r).asString

/- ### The program (`src/main.rs`) -/

/-- Left-to-right, non-overlapping replacement of the two-character pattern
`a b` by `rep`, as Rust's `str::replace` does for two-character patterns. -/
def replace2 (a b : Char) (rep : List Char) : List Char → List Char
  | [] => []
  | [c] => [c]
  | c :: d :: rest =>
    if c = a ∧ d = b then rep ++ replace2 a b rep rest
    else c :: replace2 a b rep (d :: rest)

/-- The operator translation chain of `PythonPackage::parse`: the five
`replace` calls, in source order (`>=` and `<=` are replaced by
themselves, `==` by `=`, `~=` by `~`, `!=` by `!`). -/
def translateL (s : List Char) : List Char :=
  replace2 '!' '=' ['!']
    (replace2 '~' '=' ['~']
      (replace2 '=' '=' ['=']
        (replace2 '<' '=' ['<', '=']
          (replace2 '>' '=' ['>', '='] s))))

/-- String form of the operator translation. -/
def translate (s : String) : String := (translateL s.toList).asString

/-- The two parse failure kinds of `PythonPackage::parse`. -/
inductive ParseError where
  | invalidFormat
  | invalidRequirement
deriving DecidableEq

/-- A parsed package specifier. -/
structure PythonPackage where
  name : String
  version_req : VersionReq
deriving DecidableEq

/-- Characters accepted by the name part of the regex
`^([a-zA-Z0-9_-]+)(.*?)$`. -/
def isIdChar (c : Char) : Bool := c.isAlpha || c.isDigit || c == '_' || c == '-'

/-- `PythonPackage::parse`.  The anchored regex
`^([a-zA-Z0-9_-]+)(.*?)$` matches exactly when the input starts with an
identifier character and contains no newline (`.` does not match `\n`
and both anchors must be reached), splitting the input into the maximal
leading identifier run and the remainder.  An empty remainder yields
`VersionReq::STAR`; otherwise the remainder is operator-translated and
handed to `VersionReq::from_str`. -/
def PythonPackage.parse (input : String) : Except ParseError PythonPackage :=
  match input.toList with
  | [] => .error .invalidFormat
  | c :: rest =>
    if isIdChar c && !(decide ('\n' ∈ c :: rest)) then
      let nameCs := (c :: rest).takeWhile isIdChar
      let verCs := (c :: rest).dropWhile isIdChar
      if verCs.isEmpty then .ok ⟨nameCs.asString, VersionReq.star⟩
      else
        match reqFromStrL (translateL verCs) with
        | some req => .ok ⟨nameCs.asString, req⟩
        | none => .error .invalidRequirement
    else .error .invalidFormat

/-- The fixed probe list of `PythonPackage::conflicts_with`. -/
def testVersions : List String :=
  ["0.1.0", "1.0.0", "2.0.0", "3.0.0", "4.0.0", "5.0.0", "6.0.0", "7.0.0",
   "1.2.3", "2.3.4", "3.4.5", "4.5.6", "5.6.7",
   "1.0.1", "2.0.1", "3.0.1", "4.0.1", "5.0.1"]

/-- `PythonPackage::conflicts_with`: different names never conflict;
otherwise report a conflict unless some probe version parses and
satisfies both requirements (the loop's early `return false`). -/
def PythonPackage.conflictsWith (self other : PythonPackage) : Bool :=
  if self.name ≠ other.name then false
  else
    !(testVersions.any fun s =>
      match versionParse s with
      | some version => self.version_req.matches version && other.version_req.matches version
      | none => false)

/-- The probe versions that actually parse (all of them do, see C10). -/
def probeVersions : List Version := testVersions.filterMap versionParse

/-- The three findings the presentation layer can receive. -/
inductive ConflictResult where
  | differentPackages
  | noConflict
  | conflict
deriving DecidableEq

/-- The decision logic of `main` after both parses succeed: differing
names short-circuit to `DifferentPackages` before the detector runs. -/
def analyze (pkg1 pkg2 : PythonPackage) : ConflictResult :=
  if pkg1.name ≠ pkg2.name then .differentPackages
  else if pkg1.conflictsWith pkg2 then .conflict
  else .noConflict

lemma toList_eq_nil_iff (s : String) : s.toList = [] ↔ s = "" := by
  cases s with
  | mk data =>
    constructor
    · intro h
      exact congrArg String.mk h
    · intro h
      rw [h]
      rfl

/-- Splitting `takeWhile`/`dropWhile` over an append at the boundary where
the predicate turns false. -/
lemma takeWhile_append_all (p : Char → Bool) (l1 l2 : List Char)
    (h1 : ∀ c ∈ l1, p c = true) (h2 : ∀ c, l2.head? = some c → p c = false) :
    (l1 ++ l2).takeWhile p = l1 ∧ (l1 ++ l2).dropWhile p = l2 := by
  induction l1 with
  | nil =>
    simp only [List.nil_append]
    cases l2 with
    | nil => exact ⟨rfl, rfl⟩
    | cons c t =>
      have hc := h2 c rfl
      exact ⟨by simp [List.takeWhile_cons, hc], by simp [List.dropWhile_cons, hc]⟩
  | cons c t ih =>
    have hc := h1 c (List.mem_cons_self _ _)
    have hiht := ih fun x hx => h1 x (List.mem_cons_of_mem _ hx)
    exact ⟨by simp [List.takeWhile_cons, hc, hiht.1],
      by simp [List.dropWhile_cons, hc, hiht.2]⟩

/-- When the predicate holds everywhere, `takeWhile` keeps everything. -/
lemma takeWhile_all (p : Char → Bool) (l : List Char)
    (h : ∀ c ∈ l, p c = true) :
    l.takeWhile p = l ∧ l.dropWhile p = [] := by
  have := takeWhile_append_all p l [] h (fun c hc => by simp at hc)
  simpa using this

/- ### Unfolding lemmas for the specifier parser -/

lemma parse_cons (c : Char) (rest : List Char) (input : String)
    (h : input.toList = c :: rest) :
    PythonPackage.parse input =
      if isIdChar c && !(decide ('\n' ∈ c :: rest)) then
        if ((c :: rest).dropWhile isIdChar).isEmpty then
          .ok ⟨((c :: rest).takeWhile isIdChar).asString, VersionReq.star⟩
        else
          match reqFromStrL (translateL ((c :: rest).dropWhile isIdChar)) with
          | some req => .ok ⟨((c :: rest).takeWhile isIdChar).asString, req⟩
          | none => .error .invalidRequirement
      else .error .invalidFormat := by
  unfold PythonPackage.parse
  rw [h]

/-- The format stage of `parse` on a decomposed input: a non-empty
all-identifier name followed by a remainder that starts with a
non-identifier character and contains no newline. -/
lemma parse_append (name ver : String) (hn0 : name.toList ≠ [])
    (hid : ∀ c ∈ name.toList, isIdChar c = true)
    (hv : ∀ c, ver.toList.head? = some c → isIdChar c = false)
    (hnl : '\n' ∉ ver.toList) :
    PythonPackage.parse (name ++ ver) =
      if ver.toList.isEmpty then .ok ⟨name, VersionReq.star⟩
      else
        match reqFromStrL (translateL ver.toList) with
        | some req => .ok ⟨name, req⟩
        | none => .error .invalidRequirement := by
  cases hm : name.toList with
  | nil => exact absurd hm hn0
  | cons c t =>
    have hsplit : (name ++ ver).toList = c :: (t ++ ver.toList) := by
      rw [show (name ++ ver).toList = name.toList ++ ver.toList from rfl, hm]
      rfl
    have hcId : isIdChar c = true := hid c (by rw [hm]; exact List.mem_cons_self _ _)
    have hnlAll : '\n' ∉ c :: (t ++ ver.toList) := by
      intro hmem
      rw [show c :: (t ++ ver.toList) = (c :: t) ++ ver.toList from rfl] at hmem
      rcases List.mem_append.mp hmem with hL | hR
      · have := hid '\n' (by rw [hm]; exact hL)
        simp [isIdChar] at this
      · exact hnl hR
    have hsplit2 := takeWhile_append_all isIdChar (c :: t) ver.toList
      (by rw [← hm]; exact hid) hv
    rw [parse_cons c (t ++ ver.toList) _ hsplit]
    rw [if_pos (by simp only [hcId, Bool.true_and, Bool.not_eq_true',
      decide_eq_false_iff_not]; exact hnlAll)]
    rw [show c :: (t ++ ver.toList) = (c :: t) ++ ver.toList from rfl,
      hsplit2.1, hsplit2.2]
    rw [show ((c :: t).asString) = name from by rw [← hm]; rfl]

/-- Replacing a pattern by itself changes nothing (the `>=` and `<=`
"translations"). -/
lemma replace2_self (a b : Char) (s : List Char) : replace2 a b [a, b] s = s := by
  induction s using replace2.induct a b [a, b] with
  | case1 => rfl
  | case2 c => rfl
  | case3 c d rest h ih =>
    rw [replace2, if_pos h, h.1, h.2]
    simp [ih]
  | case4 c d rest h ih =>
    rw [replace2, if_neg h, ih]

/-- A list without the pattern's first character is left unchanged. -/
lemma replace2_absent (a b : Char) (rep s : List Char) (h : a ∉ s) :
    replace2 a b rep s = s := by
  induction s using replace2.induct a b rep with
  | case1 => rfl
  | case2 c => rfl
  | case3 c d rest hcd ih =>
    exact absurd (hcd.1 ▸ List.mem_cons_self c (d :: rest)) h
  | case4 c d rest hcd ih =>
    rw [replace2, if_neg hcd, ih fun hm => h (List.mem_cons_of_mem c hm)]

/-- Replacement keeps membership of a character distinct from both pattern
characters. -/
lemma mem_replace2 (a b x : Char) (rep s : List Char)
    (hxa : x ≠ a) (hxb : x ≠ b) (h : x ∈ s) : x ∈ replace2 a b rep s := by
  induction s using replace2.induct a b rep with
  | case1 => exact absurd h (List.not_mem_nil x)
  | case2 c => simpa [replace2] using h
  | case3 c d rest hcd ih =>
    rw [replace2, if_pos hcd]
    rcases List.mem_cons.mp h with h1 | h2
    · exact absurd (h1.trans hcd.1) hxa
    · rcases List.mem_cons.mp h2 with h3 | h4
      · exact absurd (h3.trans hcd.2) hxb
      · exact List.mem_append_right rep (ih h4)
  | case4 c d rest hcd ih =>
    rw [replace2, if_neg hcd]
    rcases List.mem_cons.mp h with h1 | h2
    · exact h1 ▸ List.mem_cons_self c _
    · exact List.mem_cons_of_mem c (ih h2)

/-- The `!=` replacement re-emits its `!`, so `!` survives it. -/
lemma bang_mem_replace2_bang (s : List Char) (h : '!' ∈ s) :
    '!' ∈ replace2 '!' '=' ['!'] s := by
  induction s using replace2.induct '!' '=' ['!'] with
  | case1 => exact absurd h (List.not_mem_nil _)
  | case2 c => simpa [replace2] using h
  | case3 c d rest hcd ih =>
    rw [replace2, if_pos hcd]
    rcases List.mem_cons.mp h with h1 | h2
    · exact List.mem_cons_self _ _
    · rcases List.mem_cons.mp h2 with h3 | h4
      · exact absurd (h3.trans hcd.2) (by decide)
      · exact List.mem_cons_of_mem _ (ih h4)
  | case4 c d rest hcd ih =>
    rw [replace2, if_neg hcd]
    rcases List.mem_cons.mp h with h1 | h2
    · exact h1 ▸ List.mem_cons_self c _
    · exact List.mem_cons_of_mem c (ih h2)

/-- `!` survives the whole translation chain. -/
lemma bang_mem_translateL (s : List Char) (h : '!' ∈ s) :
    '!' ∈ translateL s := by
  unfold translateL
  exact bang_mem_replace2_bang _
    (mem_replace2 _ _ _ _ _ (by decide) (by decide)
      (mem_replace2 _ _ _ _ _ (by decide) (by decide)
        (mem_replace2 _ _ _ _ _ (by decide) (by decide)
          (mem_replace2 _ _ _ _ _ (by decide) (by decide) h))))

/- ### The requirement grammar rejects any input containing a bang -/

/-- `dropWhile` keeps every member the predicate rejects. -/
lemma mem_dropWhile_of_mem (p : Char → Bool) (x : Char) (hx : p x = false) :
    ∀ cs : List Char, x ∈ cs → x ∈ cs.dropWhile p := by
  intro cs
  induction cs with
  | nil => exact fun h => absurd h (List.not_mem_nil x)
  | cons c t ih =>
    intro h
    cases hp : p c with
    | true =>
      rw [List.dropWhile_cons, hp, if_pos rfl]
      rcases List.mem_cons.mp h with h1 | h2
      · rw [h1] at hx
        rw [hx] at hp
        exact Bool.noConfusion hp
      · exact ih h2
    | false =>
      rw [List.dropWhile_cons, hp]
      simpa using h

/-- The remainder returned by `parseNum` is the non-digit tail. -/
lemma parseNum_rest (cs : List Char) (n : Nat) (rest : List Char)
    (h : parseNum cs = some (n, rest)) : rest = cs.dropWhile Char.isDigit := by
  simp only [parseNum] at h
  split at h
  · exact Option.noConfusion h
  · split at h
    · exact Option.noConfusion h
    · split at h
      · exact Option.noConfusion h
      · simp only [Option.some.injEq, Prod.mk.injEq] at h
        exact h.2.symm

/-- The remainder returned by `parsePre` is the non-pre-release tail. -/
lemma parsePre_rest (cs : List Char) (pre : List PreId) (rest : List Char)
    (h : parsePre cs = some (pre, rest)) :
    rest = cs.dropWhile (fun c => isPreChar c || c == '.') := by
  simp only [parsePre] at h
  split at h
  · exact Option.noConfusion h
  · simp only [Option.some.injEq, Prod.mk.injEq] at h
    exact h.2.symm

/-- The remainder returned by `parseBuild` is the non-identifier tail. -/
lemma parseBuild_rest (cs : List Char) (b : List String) (rest : List Char)
    (h : parseBuild cs = some (b, rest)) :
    rest = cs.dropWhile (fun c => isPreChar c || c == '.') := by
  simp only [parseBuild] at h
  split at h
  · exact Option.noConfusion h
  · simp only [Option.some.injEq, Prod.mk.injEq] at h
    exact h.2.symm

/-- A wildcard component never consumes a bang. -/
lemma wildcard_bang (r r' : List Char) (h : wildcard r = some r')
    (hb : '!' ∈ r) : '!' ∈ r' := by
  cases r with
  | nil => exact Option.noConfusion h
  | cons c t =>
    simp only [wildcard] at h
    split at h
    · rename_i hc
      injection h with h'
      rcases List.mem_cons.mp hb with h1 | h2
      · rw [← h1] at hc
        exact absurd hc (by decide)
      · exact h' ▸ h2
    · exact Option.noConfusion h

/-- The operator parser never consumes a bang. -/
lemma parseOp_bang (cs : List Char) (h : '!' ∈ cs) : '!' ∈ (parseOp cs).2 := by
  unfold parseOp
  split <;> first
    | (rename_i rest
       rcases List.mem_cons.mp h with h1 | h2
       · exact absurd h1 (by decide)
       · first
         | exact h2
         | (rcases List.mem_cons.mp h2 with h3 | h4
            · exact absurd h3 (by decide)
            · exact h4))
    | exact h

/-- A bang inside a comparator's input survives into the remainder returned
by the comparator parser (no comparator component can contain it). -/
lemma comparatorParseL_bang (cs : List Char) (cmp : Comparator)
    (rest : List Char) (h : comparatorParseL cs = some (cmp, rest))
    (hb : '!' ∈ cs) : '!' ∈ rest := by
  have hb1 : '!' ∈ trimSpaces (parseOp cs).2 :=
    mem_dropWhile_of_mem _ _ (by decide) _ (parseOp_bang cs hb)
  have htail : ∀ (c : Char) (t : List Char), c ≠ '!' → '!' ∈ c :: t → '!' ∈ t :=
    fun c t hc hm => by
      rcases List.mem_cons.mp hm with h1 | h2
      · exact absurd h1.symm hc
      · exact h2
  simp only [comparatorParseL] at h
  split at h
  · exact Option.noConfusion h
  · rename_i maj r1 heq1
    have hbr1 : '!' ∈ r1 := by
      rw [parseNum_rest _ _ _ heq1]
      exact mem_dropWhile_of_mem _ _ (by decide) _ hb1
    split at h
    · rename_i r2
      have hbr2 : '!' ∈ r2 := htail _ _ (by decide) hbr1
      split at h
      · -- wildcard minor
        rename_i r2w heqw
        have hbw : '!' ∈ r2w := wildcard_bang _ _ heqw hbr2
        split at h
        · rename_i r3
          have hbr3 : '!' ∈ r3 := htail _ _ (by decide) hbw
          split at h
          · rename_i r3w heqw2
            simp only [Option.some.injEq, Prod.mk.injEq] at h
            rw [← h.2]
            exact wildcard_bang _ _ heqw2 hbr3
          · exact Option.noConfusion h
        · simp only [Option.some.injEq, Prod.mk.injEq] at h
          rw [← h.2]
          exact hbw
      · -- numeric minor
        split at h
        · exact Option.noConfusion h
        · rename_i mi r3 heq3
          have hbr3 : '!' ∈ r3 := by
            rw [parseNum_rest _ _ _ heq3]
            exact mem_dropWhile_of_mem _ _ (by decide) _ hbr2
          split at h
          · rename_i r4
            have hbr4 : '!' ∈ r4 := htail _ _ (by decide) hbr3
            split at h
            · -- wildcard patch
              rename_i r4w heqw4
              simp only [Option.some.injEq, Prod.mk.injEq] at h
              rw [← h.2]
              exact wildcard_bang _ _ heqw4 hbr4
            · -- numeric patch
              split at h
              · exact Option.noConfusion h
              · rename_i pa r5 heq5
                have hbr5 : '!' ∈ r5 := by
                  rw [parseNum_rest _ _ _ heq5]
                  exact mem_dropWhile_of_mem _ _ (by decide) _ hbr4
                split at h
                · -- pre-release part
                  rename_i r6
                  have hbr6 : '!' ∈ r6 := htail _ _ (by decide) hbr5
                  split at h
                  · exact Option.noConfusion h
                  · rename_i pre r7 heq7
                    have hbr7 : '!' ∈ r7 := by
                      rw [parsePre_rest _ _ _ heq7]
                      exact mem_dropWhile_of_mem _ _ (by decide) _ hbr6
                    split at h
                    · -- build after pre
                      rename_i r8
                      have hbr8 : '!' ∈ r8 := htail _ _ (by decide) hbr7
                      split at h
                      · exact Option.noConfusion h
                      · rename_i b r9 heq9
                        simp only [Option.some.injEq, Prod.mk.injEq] at h
                        rw [← h.2]
                        rw [parseBuild_rest _ _ _ heq9]
                        exact mem_dropWhile_of_mem _ _ (by decide) _ hbr8
                    · simp only [Option.some.injEq, Prod.mk.injEq] at h
                      rw [← h.2]
                      exact hbr7
                · -- build without pre
                  rename_i r6
                  have hbr6 : '!' ∈ r6 := htail _ _ (by decide) hbr5
                  split at h
                  · exact Option.noConfusion h
                  · rename_i b r7 heq7
                    simp only [Option.some.injEq, Prod.mk.injEq] at h
                    rw [← h.2]
                    rw [parseBuild_rest _ _ _ heq7]
                    exact mem_dropWhile_of_mem _ _ (by decide) _ hbr6
                · simp only [Option.some.injEq, Prod.mk.injEq] at h
                  rw [← h.2]
                  exact hbr5
          · simp only [Option.some.injEq, Prod.mk.injEq] at h
            rw [← h.2]
            exact hbr3
    · simp only [Option.some.injEq, Prod.mk.injEq] at h
      rw [← h.2]
      exact hbr1

/-- The comparator-list parser rejects any input containing a bang. -/
lemma parseComparators_bang (fuel : Nat) :
    ∀ (cs : List Char) (l : List Comparator),
      parseComparators fuel cs = some l → '!' ∈ cs → False := by
  induction fuel with
  | zero => exact fun cs l h _ => Option.noConfusion h
  | succ fuel ih =>
    intro cs l h hb
    rw [parseComparators] at h
    split at h
    · exact Option.noConfusion h
    · rename_i c rest heq
      have hbr : '!' ∈ trimSpaces rest :=
        mem_dropWhile_of_mem _ _ (by decide) _
          (comparatorParseL_bang cs c rest heq hb)
    -- case on the shape of the trimmed remainder
      split at h
      · rename_i heq2
        rw [heq2] at hbr
        exact absurd hbr (List.not_mem_nil _)
      · rename_i rest2 heq2
        rw [heq2] at hbr
        have hbr2 : '!' ∈ rest2 := by
          rcases List.mem_cons.mp hbr with h1 | h2
          · exact absurd h1 (by decide)
          · exact h2
        split at h
        · exact Option.noConfusion h
        · split at h
          · exact Option.noConfusion h
          · exact ih (trimSpaces rest2) _ (by assumption)
              (mem_dropWhile_of_mem _ _ (by decide) _ hbr2)
      · exact Option.noConfusion h

/-- `VersionReq::from_str` rejects any input containing a bang: `!` is not
a comparator operator of the requirement grammar. -/
lemma reqFromStrL_bang (cs : List Char) (hb : '!' ∈ cs) :
    reqFromStrL cs = none := by
  cases hres : reqFromStrL cs with
  | none => rfl
  | some r =>
    exfalso
    have hbt : '!' ∈ trimSpaces cs := mem_dropWhile_of_mem _ _ (by decide) _ hb
    rw [reqFromStrL] at hres
    split at hres
    · rename_i heq
      rw [heq] at hbt
      exact absurd hbt (List.not_mem_nil _)
    · rename_i c rest heq
      rw [heq] at hbt
      split at hres
      · rename_i hwild
        split at hres
        · rename_i hempty
          rcases List.mem_cons.mp hbt with h1 | h2
          · rw [← h1] at hwild
            exact absurd hwild (by decide)
          · have hmem : '!' ∈ trimSpaces rest :=
              mem_dropWhile_of_mem (fun c => c == ' ') '!' (by decide) rest h2
            rw [List.isEmpty_iff.mp hempty] at hmem
            exact absurd hmem (List.not_mem_nil _)
        · exact Option.noConfusion hres
      · split at hres
        · exact Option.noConfusion hres
        · exact parseComparators_bang _ _ _ (by assumption) hbt

/- ### Round-trip of exact requirements -/

/-- Characters that can occur in a version literal of the modelled
grammar. -/
def versionLitChar (c : Char) : Bool :=
  c.isDigit || c.isAlpha || c == '.' || c == '-'

lemma string_append_assoc (a b c : String) : a ++ b ++ c = a ++ (b ++ c) := by
  cases a
  cases b
  cases c
  exact congrArg String.mk (List.append_assoc _ _ _)

/-- An input accepted by `parseNum` cannot start with a space. -/
lemma trimSpaces_of_parseNum (cs : List Char) (x : Nat × List Char)
    (h : parseNum cs = some x) : trimSpaces cs = cs := by
  cases cs with
  | nil => exact Option.noConfusion h
  | cons c t =>
    cases hd : Char.isDigit c with
    | false =>
      exfalso
      simp [parseNum, List.takeWhile_cons, hd] at h
    | true =>
      have hcs : (c == ' ') = false := by
        cases he : c == ' '
        · rfl
        · rw [show c = ' ' from by simpa using he] at hd
          exact absurd hd (by decide)
      simp [trimSpaces, List.dropWhile_cons, hcs]

/-- The head of an input accepted by `parseNum` is a digit. -/
lemma parseNum_head_digit (c : Char) (t : List Char) (x : Nat × List Char)
    (h : parseNum (c :: t) = some x) : Char.isDigit c = true := by
  cases hd : Char.isDigit c
  · exfalso
    simp [parseNum, List.takeWhile_cons, hd] at h
  · rfl

/-- An input accepted by `parseNum` is not a wildcard component. -/
lemma wildcard_none_of_parseNum (r : List Char) (x : Nat × List Char)
    (h : parseNum r = some x) : wildcard r = none := by
  cases r with
  | nil => rfl
  | cons c t =>
    have hd := parseNum_head_digit c t x h
    have hcond : (c == '*' || c == 'x' || c == 'X') = false := by
      cases h1 : c == '*' with
      | true =>
        rw [eq_of_beq h1] at hd
        exact absurd hd (by decide)
      | false =>
        cases h2 : c == 'x' with
        | true =>
          rw [eq_of_beq h2] at hd
          exact absurd hd (by decide)
        | false =>
          cases h3 : c == 'X' with
          | true =>
            rw [eq_of_beq h3] at hd
            exact absurd hd (by decide)
          | false => rfl
    simp [wildcard, hcond]

/-- The comparator grammar for a full version mirrors the version grammar:
prefixing `=` to a parseable version yields the exact comparator with the
same numeric and pre-release components (build metadata, if any, is
discarded) and no leftover input. -/
lemma comparatorParseL_exact_of_version (cs : List Char) (v : Version)
    (h : versionParseL cs = some v) :
    comparatorParseL ('=' :: cs) =
      some (⟨.exact, v.major, some v.minor, some v.patch, v.pre⟩, []) := by
  have hop : parseOp ('=' :: cs) = (some Op.exact, cs) := rfl
  simp only [versionParseL] at h
  split at h
  · exact Option.noConfusion h
  · rename_i maj r1 heq1
    have htrim : trimSpaces cs = cs := trimSpaces_of_parseNum _ _ heq1
    split at h
    · rename_i r2
      split at h
      · exact Option.noConfusion h
      · rename_i mi r3 heq3
        have hw2 : wildcard r2 = none := wildcard_none_of_parseNum r2 _ heq3
        split at h
        · rename_i r4
          split at h
          · exact Option.noConfusion h
          · rename_i pa r5 heq5
            have hw4 : wildcard r4 = none := wildcard_none_of_parseNum r4 _ heq5
            split at h
            · -- no pre-release, no build
              injection h with veq
              subst veq
              simp [comparatorParseL, hop, htrim, heq1, hw2, heq3, hw4, heq5]
            · -- pre-release part present
              rename_i r6
              split at h
              · exact Option.noConfusion h
              · rename_i pre r7 heq7
                split at h
                · -- pre-release only
                  injection h with veq
                  subst veq
                  simp [comparatorParseL, hop, htrim, heq1, hw2, heq3, hw4, heq5, heq7]
                · -- pre-release then build
                  rename_i r8
                  split at h
                  · rename_i build heq9
                    injection h with veq
                    subst veq
                    simp [comparatorParseL, hop, htrim, heq1, hw2, heq3, hw4, heq5,
                      heq7, heq9]
                  · exact Option.noConfusion h
                · exact Option.noConfusion h
            · -- build without pre-release
              rename_i r6
              split at h
              · rename_i build heq9
                injection h with veq
                subst veq
                simp [comparatorParseL, hop, htrim, heq1, hw2, heq3, hw4, heq5, heq9]
              · exact Option.noConfusion h
            · exact Option.noConfusion h
        · exact Option.noConfusion h
    · exact Option.noConfusion h

/-- `VersionReq::from_str` on `=` followed by a parseable version yields
the singleton exact requirement. -/
lemma reqFromStrL_exact_of_version (cs : List Char) (v : Version)
    (h : versionParseL cs = some v) :
    reqFromStrL ('=' :: cs) =
      some ⟨[⟨.exact, v.major, some v.minor, some v.patch, v.pre⟩]⟩ := by
  have hcomp := comparatorParseL_exact_of_version cs v h
  simp [reqFromStrL, trimSpaces, hcomp, parseComparators]

lemma asString_append (l1 l2 : List Char) :
    (l1 ++ l2).asString = l1.asString ++ l2.asString := rfl

/-- Displaying the singleton exact requirement prefixes `=` to the
version's display. -/
lemma reqToString_exact (maj mi pa : Nat) (pre : List PreId) :
    reqToString ⟨[⟨.exact, maj, some mi, some pa, pre⟩]⟩ =
      "=" ++ versionToString ⟨maj, mi, pa, pre, []⟩ := by
  simp only [reqToString, reqChars, comparatorsChars]
  rw [show ("=" : String) = (['='] : List Char).asString from rfl,
    versionToString, ← asString_append]
  congr 1
  simp [comparatorChars, opChars, versionChars]

/-- The translation turns a leading `==` into `=` and leaves a tail free of
`=`, `~` and `!` unchanged. -/
lemma translateL_eqeq (l : List Char) (h1 : '=' ∉ l) (h2 : '~' ∉ l)
    (h3 : '!' ∉ l) : translateL ('=' :: '=' :: l) = '=' :: l := by
  unfold translateL
  rw [replace2_self, replace2_self]
  rw [show replace2 '=' '=' ['='] ('=' :: '=' :: l) = '=' :: l from by
    rw [replace2, if_pos ⟨rfl, rfl⟩, replace2_absent _ _ _ _ h1]
    rfl]
  rw [replace2_absent '~' '=' ['~'] ('=' :: l) (by
    intro hm
    rcases List.mem_cons.mp hm with hh | ht
    · exact absurd hh (by decide)
    · exact h2 ht)]
  rw [replace2_absent '!' '=' ['!'] ('=' :: l) (by
    intro hm
    rcases List.mem_cons.mp hm with hh | ht
    · exact absurd hh (by decide)
    · exact h3 ht)]

/- ### Lemmas about the conflict detector -/

/-- The probe loop accepts exactly when some successfully parsed probe
version satisfies both requirements. -/
lemma any_probe_iff (r1 r2 : VersionReq) :
    (testVersions.any fun s =>
        match versionParse s with
        | some version => r1.matches version && r2.matches version
        | none => false) = true ↔
      ∃ v ∈ probeVersions, r1.matches v = true ∧ r2.matches v = true := by
  rw [List.any_eq_true]
  constructor
  · rintro ⟨s, hs, hb⟩
    rcases hp : versionParse s with _ | v
    · rw [hp] at hb; exact absurd hb (by simp)
    · rw [hp] at hb
      exact ⟨v, List.mem_filterMap.mpr ⟨s, hs, hp⟩,
        by simpa [Bool.and_eq_true] using hb⟩
  · rintro ⟨v, hv, hg1, hg2⟩
    rcases List.mem_filterMap.mp hv with ⟨s, hs, hp⟩
    exact ⟨s, hs, by rw [hp]; simp [hg1, hg2]⟩

/-- The probe loop is symmetric in the two requirements. -/
lemma conflicts_body_symm (r1 r2 : VersionReq) :
    (testVersions.any fun s =>
        match versionParse s with
        | some version => r1.matches version && r2.matches version
        | none => false) =
      (testVersions.any fun s =>
        match versionParse s with
        | some version => r2.matches version && r1.matches version
        | none => false) := by
  congr 1
  funext s
  cases versionParse s with
  | none => rfl
  | some v => exact Bool.and_comm _ _

/- ### Claims about the conflict detector -/

/-- C1: for every pair of packages with equal names, the detector returns
"not conflicting" if and only if at least one version of the fixed probe
set satisfies both requirements; otherwise it reports a conflict. -/
theorem claim1_conflict_probe_iff (a b : PythonPackage) (h : a.name = b.name) :
    a.conflictsWith b = false ↔
      ∃ v ∈ probeVersions,
        a.version_req.matches v = true ∧ b.version_req.matches v = true := by
  unfold PythonPackage.conflictsWith
  rw [if_neg (by simp [h])]
  rw [Bool.not_eq_false']
  exact any_probe_iff a.version_req b.version_req

/-- Witness for C1 at `requests>=2.0.0` / `requests<3.0.0`: probe `2.0.0`
satisfies both, so no conflict is reported. -/
theorem claim1_witness :
    (PythonPackage.mk "requests" ⟨[⟨.greaterEq, 2, some 0, some 0, []⟩]⟩).name =
      (PythonPackage.mk "requests" ⟨[⟨.less, 3, some 0, some 0, []⟩]⟩).name ∧
    (PythonPackage.mk "requests" ⟨[⟨.greaterEq, 2, some 0, some 0, []⟩]⟩).conflictsWith
      ⟨"requests", ⟨[⟨.less, 3, some 0, some 0, []⟩]⟩⟩ = false :=
  ⟨rfl,
    (claim1_conflict_probe_iff _ _ rfl).mpr
      ⟨⟨2, 0, 0, [], []⟩, by decide, by decide, by decide⟩⟩

/-- C3: on an input that splits into a name and a non-empty version part,
the version part is operator-translated (`>=`/`<=` kept, `==` to `=`,
`~=` to `~`, `!=` to a `!` prefix) and the translated string is handed
unmodified to the requirement parser, whose verdict alone decides the
result. -/
theorem claim3_operator_translation (name ver : String) (hn0 : name ≠ "")
    (hid : ∀ c ∈ name.toList, isIdChar c = true)
    (hv : ∀ c, ver.toList.head? = some c → isIdChar c = false)
    (hnl : '\n' ∉ ver.toList) (hne : ver ≠ "") :
    PythonPackage.parse (name ++ ver) =
      (match reqFromStrL (translateL ver.toList) with
        | some req => .ok ⟨name, req⟩
        | none => .error .invalidRequirement) ∧
    translate ">=" = ">=" ∧ translate "<=" = "<=" ∧
    translate "==" = "=" ∧ translate "~=" = "~" ∧ translate "!=" = "!" := by
  refine ⟨?_, by decide, by decide, by decide, by decide, by decide⟩
  rw [parse_append name ver (fun h => hn0 ((toList_eq_nil_iff name).mp h)) hid hv hnl]
  rw [if_neg (by simp only [List.isEmpty_iff]; exact fun h => hne ((toList_eq_nil_iff ver).mp h))]

/-- Witness for C3 at `pkg>=2.0.0`. -/
theorem claim3_witness :
    PythonPackage.parse ("pkg" ++ ">=2.0.0") =
      (match reqFromStrL (translateL ">=2.0.0".toList) with
        | some req => .ok ⟨"pkg", req⟩
        | none => .error .invalidRequirement) ∧
    translate ">=" = ">=" ∧ translate "<=" = "<=" ∧
    translate "==" = "=" ∧ translate "~=" = "~" ∧ translate "!=" = "!" :=
  claim3_operator_translation "pkg" ">=2.0.0" (by decide)
    (by decide) (by decide) (by decide) (by decide)

/-- C5 (corrected): an input made of identifier characters only parses to
the unconstrained `*` requirement, and that requirement matches every
version whose pre-release part is empty (pre-release versions are
rejected by the matcher even under `*`). -/
theorem claim5_star_unconstrained (input : String) (h0 : input ≠ "")
    (hid : ∀ c ∈ input.toList, isIdChar c = true) :
    PythonPackage.parse input = .ok ⟨input, VersionReq.star⟩ ∧
    ∀ v : Version, v.pre = [] → VersionReq.star.matches v = true := by
  constructor
  · cases hm : input.toList with
    | nil => exact absurd ((toList_eq_nil_iff input).mp hm) h0
    | cons c t =>
      have hid' : ∀ x ∈ c :: t, isIdChar x = true := by rw [← hm]; exact hid
      have hsplit := takeWhile_all isIdChar (c :: t) hid'
      rw [parse_cons c t input hm]
      rw [if_pos (by
        simp only [hid' c (List.mem_cons_self _ _), Bool.true_and,
          Bool.not_eq_true', decide_eq_false_iff_not]
        intro hmem
        have := hid' '\n' hmem
        simp [isIdChar] at this)]
      rw [if_pos (show ((c :: t).dropWhile isIdChar).isEmpty = true by
        rw [hsplit.2]; rfl)]
      rw [show ((c :: t).takeWhile isIdChar).asString = input from by
        rw [hsplit.1, ← hm]; rfl]
  · intro v hv
    simp [VersionReq.matches, VersionReq.star, hv]

/-- Witness for C5 at `requests`. -/
theorem claim5_witness :
    PythonPackage.parse "requests" = .ok ⟨"requests", VersionReq.star⟩ ∧
    ∀ v : Version, v.pre = [] → VersionReq.star.matches v = true :=
  claim5_star_unconstrained "requests" (by decide) (by decide)

/-- Counterexample to C5 as stated: `requests` parses to the unconstrained
requirement, but that requirement does not match the pre-release version
`1.0.0-alpha`, so it does not match every version. -/
theorem claim5_counterexample :
    PythonPackage.parse "requests" = .ok ⟨"requests", VersionReq.star⟩ ∧
    VersionReq.star.matches ⟨1, 0, 0, [PreId.str "alpha"], []⟩ = false :=
  ⟨rfl, by decide⟩

/-- C4: packages with different names are reported as `DifferentPackages`
by the program's decision logic, and the detector itself also returns
"no conflict" on them without consulting the probe loop. -/
theorem claim4_different_packages (a b : PythonPackage) (h : a.name ≠ b.name) :
    analyze a b = .differentPackages ∧ a.conflictsWith b = false := by
  constructor
  · unfold analyze
    rw [if_pos h]
  · unfold PythonPackage.conflictsWith
    rw [if_pos h]

/-- Witness for C4 at two differently named unconstrained packages. -/
theorem claim4_witness :
    analyze ⟨"requests", VersionReq.star⟩ ⟨"flask", VersionReq.star⟩ =
      .differentPackages ∧
    (PythonPackage.mk "requests" VersionReq.star).conflictsWith
      ⟨"flask", VersionReq.star⟩ = false :=
  claim4_different_packages _ _ (by decide)

/-- C7: the conflict check is symmetric. -/
theorem claim7_symmetric (a b : PythonPackage) :
    a.conflictsWith b = b.conflictsWith a := by
  unfold PythonPackage.conflictsWith
  by_cases h : a.name = b.name
  · rw [if_neg (by simp [h]), if_neg (by simp [h]), conflicts_body_symm]
  · rw [if_pos h, if_pos (Ne.symm h)]

/-- C6 (corrected): parsing a specifier `name==X` for a version literal `X`
(in its canonical display form, without build metadata) succeeds, and
formatting the stored requirement back to text yields `=X`; in
particular `django==3.2.0` comes back as `=3.2.0`.  Literals with build
metadata are excluded: a comparator stores no build metadata, so their
round-trip drops the `+...` part (see the counterexample). -/
theorem claim6_roundtrip (name X : String) (v : Version) (hn0 : name ≠ "")
    (hid : ∀ c ∈ name.toList, isIdChar c = true)
    (hX : versionParse X = some v) (hbuild : v.build = [])
    (hchars : ∀ c ∈ X.toList, versionLitChar c = true)
    (hcanon : versionToString v = X) :
    ∃ req, PythonPackage.parse (name ++ "==" ++ X) = .ok ⟨name, req⟩ ∧
      reqToString req = "=" ++ X := by
  have hnotchar : ∀ x : Char, versionLitChar x = false → x ∉ X.toList :=
    fun x hx hm => by
      rw [hchars x hm] at hx
      exact Bool.noConfusion hx
  refine ⟨⟨[⟨.exact, v.major, some v.minor, some v.patch, v.pre⟩]⟩, ?_, ?_⟩
  · rw [string_append_assoc]
    rw [parse_append name ("==" ++ X)
      (fun h => hn0 ((toList_eq_nil_iff name).mp h)) hid
      (fun c hc => by
        have hc' : some '=' = some c := hc
        rw [← Option.some.inj hc']
        rfl)
      (fun hm => by
        have hm' : '\n' ∈ '=' :: '=' :: X.toList := hm
        rcases List.mem_cons.mp hm' with h1 | hm2
        · exact absurd h1 (by decide)
        · rcases List.mem_cons.mp hm2 with h2 | hm3
          · exact absurd h2 (by decide)
          · exact hnotchar '\n' (by decide) hm3)]
    rw [if_neg (fun hemp => Bool.noConfusion hemp)]
    rw [show translateL (("==" ++ X).toList) = '=' :: X.toList from by
      rw [show ("==" ++ X).toList = '=' :: '=' :: X.toList from rfl]
      exact translateL_eqeq X.toList (hnotchar '=' (by decide))
        (hnotchar '~' (by decide)) (hnotchar '!' (by decide))]
    rw [reqFromStrL_exact_of_version X.toList v hX]
  · rw [reqToString_exact]
    rw [show (⟨v.major, v.minor, v.patch, v.pre, []⟩ : Version) = v from by
      rw [← hbuild]]
    rw [hcanon]

/-- Witness for C6 at `django==3.2.0`. -/
theorem claim6_witness :
    ∃ req, PythonPackage.parse ("django" ++ "==" ++ "3.2.0") = .ok ⟨"django", req⟩ ∧
      reqToString req = "=" ++ "3.2.0" :=
  claim6_roundtrip "django" "3.2.0" ⟨3, 2, 0, [], []⟩ (by decide) (by decide)
    (by decide) rfl (by decide) (by decide)

/-- Counterexample to C6 as stated: `1.0.0+m` is a version literal (it
parses, and displaying the parsed version gives back `1.0.0+m`), yet
`pkg==1.0.0+m` parses to a comparator without the build metadata and
formats back as `=1.0.0`, not `=1.0.0+m`. -/
theorem claim6_counterexample :
    versionParse "1.0.0+m" = some ⟨1, 0, 0, [], ["m"]⟩ ∧
    versionToString ⟨1, 0, 0, [], ["m"]⟩ = "1.0.0+m" ∧
    PythonPackage.parse "pkg==1.0.0+m" =
      .ok ⟨"pkg", ⟨[⟨.exact, 1, some 0, some 0, []⟩]⟩⟩ ∧
    reqToString ⟨[⟨.exact, 1, some 0, some 0, []⟩]⟩ = "=1.0.0" ∧
    reqToString ⟨[⟨.exact, 1, some 0, some 0, []⟩]⟩ ≠ "=" ++ "1.0.0+m" := by
  refine ⟨rfl, rfl, rfl, rfl, by decide⟩

/-- C8: an input whose constraint part contains the Python `!=` operator
fails with `InvalidRequirement`: the translation turns `!=` into a `!`
prefix and the requirement grammar has no `!` comparator. -/
theorem claim8_neq_rejected (name ver : String) (hn0 : name ≠ "")
    (hid : ∀ c ∈ name.toList, isIdChar c = true)
    (hv : ∀ c, ver.toList.head? = some c → isIdChar c = false)
    (hnl : '\n' ∉ ver.toList)
    (hsub : ∃ l r, ver.toList = l ++ '!' :: '=' :: r) :
    PythonPackage.parse (name ++ ver) = .error .invalidRequirement := by
  obtain ⟨l, r, hlr⟩ := hsub
  have hbang : '!' ∈ ver.toList := by
    rw [hlr]
    exact List.mem_append_right l (List.mem_cons_self _ _)
  rw [parse_append name ver (fun h => hn0 ((toList_eq_nil_iff name).mp h)) hid hv hnl]
  rw [if_neg (by
    simp only [List.isEmpty_iff]
    intro h
    rw [h] at hbang
    exact List.not_mem_nil _ hbang)]
  rw [reqFromStrL_bang _ (bang_mem_translateL _ hbang)]

/-- Witness for C8 at `pkg!=1.0.0`. -/
theorem claim8_witness :
    PythonPackage.parse ("pkg" ++ "!=1.0.0") = .error .invalidRequirement :=
  claim8_neq_rejected "pkg" "!=1.0.0" (by decide) (by decide) (by decide)
    (by decide) ⟨[], "1.0.0".toList, rfl⟩

/-- C9: the detector is not reflexive-compatible: the package parsed from
`pkg==9.9.9` conflicts with itself, although version `9.9.9` satisfies
its requirement. -/
theorem claim9_self_conflict :
    PythonPackage.parse "pkg==9.9.9" =
      .ok ⟨"pkg", ⟨[⟨.exact, 9, some 9, some 9, []⟩]⟩⟩ ∧
    (PythonPackage.mk "pkg" ⟨[⟨.exact, 9, some 9, some 9, []⟩]⟩).conflictsWith
      ⟨"pkg", ⟨[⟨.exact, 9, some 9, some 9, []⟩]⟩⟩ = true ∧
    (VersionReq.mk [⟨.exact, 9, some 9, some 9, []⟩]).matches ⟨9, 9, 9, [], []⟩ = true :=
  ⟨rfl, by decide, by decide⟩

/-- C10: all 18 hard-coded probe strings parse as semantic versions, so
the error-skipping branch of the probe loop never fires and exactly 18
candidate versions are available on every invocation. -/
theorem claim10_probes_parse :
    (testVersions.all fun s => (versionParse s).isSome) = true ∧
    testVersions.length = 18 ∧ probeVersions.length = 18 :=
  ⟨by decide, rfl, by decide⟩

end PyHelper
